import Mathlib

/-!
Verification of the two-pass agenda-report generation backend
(`backend.py` / `kivybackend.py` of the PacificaAutoAgendaWriter repository).

Strings are modelled as `List Char`; a Python string value `s` is embedded as
the list of its characters.  Python's `str.find` (returning `-1` on failure)
is modelled as an `Option Nat`; the call sites compare against `-1`, which
corresponds to matching on `none`.
-/

/-- Python `s.find(pat)`: index of the first occurrence of `pat` in `s`
(`none` plays the role of `-1`). -/
def pyFind (pat : List Char) : List Char → Option Nat
  | [] => if pat.isPrefixOf [] then some 0 else none
  | c :: rest =>
      if pat.isPrefixOf (c :: rest) then some 0
      else (pyFind pat rest).map (· + 1)

/-- Specification-level view of `find` + slicing: the first occurrence of
`pat` splits `s` into the part before and the part after the occurrence. -/
def splitOnFirst (pat : List Char) : List Char → Option (List Char × List Char)
  | [] => if pat.isPrefixOf [] then some ([], []) else none
  | c :: rest =>
      if pat.isPrefixOf (c :: rest) then some ([], (c :: rest).drop pat.length)
      else (splitOnFirst pat rest).map (fun p => (c :: p.1, p.2))

/-- The opening marker of a suppressed "thinking" span. -/
def openTag : List Char := "<think>".toList

/-- The closing marker of a suppressed "thinking" span. -/
def closeTag : List Char := "</think>".toList

/-- State of `GUITokenFilter`: the pending buffer `_buf` and the `_in_think`
flag. -/
structure FilterState where
  buf : List Char
  inThink : Bool
deriving DecidableEq

/-- A fresh `GUITokenFilter()`: empty buffer, outside any thinking span. -/
def initFilter : FilterState := ⟨[], false⟩

/-- Fuel-indexed implementation of the `while self._buf:` loop of
`GUITokenFilter.filter_token`.  Every executed iteration strictly shrinks
the buffer (a found marker removes at least the marker itself, and a missed
search clears the buffer), so any fuel above the buffer length computes the
loop to completion; the fuel only makes the recursion structural
(`filterLoopF_fuel_irrelevant` shows the result does not depend on it). -/
def filterLoopF : Nat → Bool → List Char → List Char × FilterState
  | 0, inThink, buf => ([], ⟨buf, inThink⟩)
  | _ + 1, inThink, [] => ([], ⟨[], inThink⟩)
  | fuel + 1, true, b :: bs =>
      match pyFind closeTag (b :: bs) with
      | none => ([], ⟨[], true⟩)
      | some e => filterLoopF fuel false ((b :: bs).drop (e + closeTag.length))
  | fuel + 1, false, b :: bs =>
      match pyFind openTag (b :: bs) with
      | none => (b :: bs, ⟨[], false⟩)
      | some s =>
          ((b :: bs).take s ++ (filterLoopF fuel true ((b :: bs).drop (s + openTag.length))).1,
            (filterLoopF fuel true ((b :: bs).drop (s + openTag.length))).2)

/-- The `while self._buf:` loop of `GUITokenFilter.filter_token`, returning
the emitted output together with the final `(_buf, _in_think)` state. -/
def filterLoop (inThink : Bool) (buf : List Char) : List Char × FilterState :=
  filterLoopF (buf.length + 1) inThink buf

/-- `GUITokenFilter.filter_token`: append the token to the buffer and run the
scanning loop; an empty token returns immediately. -/
def filter_token (st : FilterState) (token : List Char) : List Char × FilterState :=
  if token = [] then ([], st)
  else filterLoop st.inThink (st.buf ++ token)

/-- Feed a sequence of tokens through one filter instance, concatenating the
returned outputs. -/
def runFilter (st : FilterState) : List (List Char) → List Char × FilterState
  | [] => ([], st)
  | t :: ts =>
      ((filter_token st t).1 ++ (runFilter (filter_token st t).2 ts).1,
        (runFilter (filter_token st t).2 ts).2)

/-- The list of per-call outputs (not yet concatenated) of one filter
instance run over a token sequence. -/

def filterOutputs (st : FilterState) : List (List Char) → List (List Char)
  | [] => []
  | t :: ts => (filter_token st t).1 :: filterOutputs (filter_token st t).2 ts

/-- Python line-boundary characters recognised by `str.splitlines`
(`"\r\n"` is treated as a single boundary by `takeLine`). -/
def pyLineBreak (c : Char) : Bool :=
  c == '\n' || c == '\r' || c == '\x0b' || c == '\x0c' ||
    c == '\x1c' || c == '\x1d' || c == '\x1e' || c == '\x85' ||
    c == '\u2028' || c == '\u2029'

/-- Characters stripped by Python `str.strip()` (the ASCII/Latin-1 ones; the
remaining rare Unicode space characters never occur in the texts handled
here). -/
def pySpace (c : Char) : Bool :=
  c == ' ' || c == '\t' || c == '\n' || c == '\r' || c == '\x0b' || c == '\x0c' ||
    c == '\x1c' || c == '\x1d' || c == '\x1e' || c == '\x1f' || c == '\x85' || c == '\xa0'

/-- Python `s.strip()`: remove leading and trailing whitespace. -/
def pyStrip (s : List Char) : List Char :=
  ((s.dropWhile pySpace).reverse.dropWhile pySpace).reverse

/-- Split off the first line of a string: returns the line and the remainder
after the line boundary (consuming `"\r\n"` as one boundary). -/
def takeLine : List Char → List Char × List Char
  | [] => ([], [])
  | c :: rest =>
      if pyLineBreak c then
        if c = '\r' ∧ rest.head? = some '\n' then ([], rest.tail) else ([], rest)
      else
        (c :: (takeLine rest).1, (takeLine rest).2)

/-- Fuel-indexed implementation of Python `str.splitlines`; any fuel of at
least the string length computes all lines (`pySplitlinesF_fuel_irrelevant`). -/
def pySplitlinesF : Nat → List Char → List (List Char)
  | 0, _ => []
  | _ + 1, [] => []
  | fuel + 1, c :: rest =>
      (takeLine (c :: rest)).1 :: pySplitlinesF fuel (takeLine (c :: rest)).2

/-- Python `s.splitlines()`: no trailing empty line for a trailing boundary,
and `"\r\n"` counts as one boundary. -/
def pySplitlines (s : List Char) : List (List Char) := pySplitlinesF s.length s

/-- Python `"\n".join(lines)`. -/
def joinNL (lines : List (List Char)) : List Char := List.intercalate ['\n'] lines

/-- `AgendaBackend._extract_clean_summary`: strip everything up to and
including the first `"</think>"` if present (`end = raw.find("</think>")`;
`cleaned = raw[end + 8:] if end != -1 else raw`), then
`[ln.strip() for ln in cleaned.splitlines() if ln.strip()]` joined with
newlines. -/
def extract_clean_summary (raw : List Char) : List Char :=
  let cleaned :=
    match pyFind closeTag raw with
    | none => raw
    | some e => raw.drop (e + 8)
  joinNL (((pySplitlines cleaned).filter (fun ln => decide (pyStrip ln ≠ []))).map pyStrip)

/-- Specification wording of clean-summary extraction: if a closing
think-marker occurs, the text after its first occurrence, otherwise the whole
text; in both cases every line is stripped, blank lines are dropped, and the
remaining lines are rejoined with single newlines. -/
def spec_clean_summary (raw : List Char) : List Char :=
  let cleaned :=
    match splitOnFirst closeTag raw with
    | some p => p.2
    | none => raw
  joinNL (((pySplitlines cleaned).map pyStrip).filter (fun ln => decide (ln ≠ [])))

/-- One agenda row (a pandas `Series`) as seen by `_run_generation`.  Every
field holds the *stringified* cell value (`str(...)` is applied by the code
to everything it reads); `none` models a column that is absent from the row,
in which case `.get` supplies the code's default.  The date column is
indexed directly (`r[csv_headers["date"]]`) and is assumed present. -/
structure Row where
  date : List Char
  sect : Option (List Char)
  item : Option (List Char)
  notes : Option (List Char)
deriving DecidableEq

/-- Lookup in the `grouped` dict (insertion-ordered, modelled as an
association list). -/
def lookupGroup (d : List Char) : List (List Char × List Row) → Option (List Row)
  | [] => none
  | e :: es => if e.1 = d then some e.2 else lookupGroup d es

/-- `grouped[date].append(r)`. -/
def appendGroup (d : List Char) (r : Row) :
    List (List Char × List Row) → List (List Char × List Row)
  | [] => []
  | e :: es => if e.1 = d then (e.1, e.2 ++ [r]) :: es else e :: appendGroup d r es

/-- One iteration of the grouping loop of `_run_generation`:
`if date not in grouped: grouped[date] = []; ordered_dates.append(date)`
followed by `grouped[date].append(r)`. -/
def groupStep (acc : List (List Char) × List (List Char × List Row)) (r : Row) :
    List (List Char) × List (List Char × List Row) :=
  match lookupGroup r.date acc.2 with
  | none => (acc.1 ++ [r.date], appendGroup r.date r (acc.2 ++ [(r.date, [])]))
  | some _ => (acc.1, appendGroup r.date r acc.2)

/-- The grouping pass: returns `ordered_dates` and `grouped`. -/
def groupByDate (rows : List Row) : List (List Char) × List (List Char × List Row) :=
  rows.foldl groupStep ([], [])

/-- The `ordered_dates` list produced by the grouping pass. -/
def orderedDates (rows : List Row) : List (List Char) := (groupByDate rows).1

def firstSeen : List (List Char) → List (List Char)
  | [] => []
  | d :: ds => d :: (firstSeen ds).filter (fun x => decide (x ≠ d))

/-- Helper: first-appearance order relative to an already-seen set. -/
def firstSeenFrom (seen : List (List Char)) : List (List Char) → List (List Char)
  | [] => []
  | d :: ds => if d ∈ seen then firstSeenFrom seen ds else d :: firstSeenFrom (seen ++ [d]) ds

/-- Python string comparison `a <= b`: lexicographic by code point. -/
def strLe : List Char → List Char → Bool
  | [], _ => true
  | _ :: _, [] => false
  | a :: as, b :: bs => if a = b then strLe as bs else decide (a < b)

/-- The sort key of `items.sort(key=lambda x: str(x.get(csv_headers["section"], "")))`:
the stringified section cell, or `""` for a missing section column. -/
def sKey (r : Row) : List Char := r.sect.getD []

/-- Row comparison used by the section sort. -/
def sectionLe (a b : Row) : Prop := strLe (sKey a) (sKey b) = true

instance decidableSectionLe : DecidableRel sectionLe := fun a b =>
  inferInstanceAs (Decidable (strLe (sKey a) (sKey b) = true))

/-- Python's `list.sort(key=...)` is a stable ascending sort; any stable sort
with respect to a total transitive comparison produces the same list, so it
is modelled by stable insertion sort. -/
def sortRows (l : List Row) : List Row := List.insertionSort sectionLe l

/-- Python `s.replace(old, new)` for single-character `old`/`new`. -/
def replChar (a b : Char) (s : List Char) : List Char :=
  s.map (fun c => if c = a then b else c)

/-- Python `s.lower()` (ASCII case folding; the compared literal is `"nan"`). -/
def pyLower (s : List Char) : List Char := s.map Char.toLower

/-- Fuel-indexed `re.sub(r'\[.*?\]', '', s)`: repeatedly delete the span from
a `'['` to the nearest following `']'` (the non-greedy match), scanning left
to right; a `'['` with no later `']'` matches nothing.  Fuel at least the
string length computes the full substitution. -/
def stripBracketsF : Nat → List Char → List Char
  | 0, s => s
  | _ + 1, [] => []
  | fuel + 1, c :: rest =>
      if c = '[' then
        match splitOnFirst [']'] rest with
        | some p => stripBracketsF fuel p.2
        | none => c :: rest
      else c :: stripBracketsF fuel rest

/-- `re.sub(r'\[.*?\]', '', s)`. -/
def stripBrackets (s : List Char) : List Char := stripBracketsF s.length s

/-- The normalisation applied to every field before insertion:
`str(...).replace("\n", " ").replace("•", "-").strip()`. -/
def normField (v : List Char) : List Char :=
  pyStrip (replChar '•' '-' (replChar '\n' ' ' v))

/-- The per-item description line built inside `_run_generation`
(`kivybackend.py`): section falls back to `"placeholder"` and title to
`"unnamed item"` when empty or `"nan"`; notes come from `it.get(...)`
(whose `str(None)` is `"None"` when the column is missing); bracketed spans
are stripped when `ignore_brackets` is set; the entry is
`f"- Item: {title}, Section: \"{sec}\""` plus an optional
`f", Notes: \"{notes}\""` when the notes are neither `"nan"`
(case-insensitively) nor empty. -/
def buildEntry (ignoreBrackets : Bool) (it : Row) : List Char :=
  let sec0 := normField (it.sect.getD "N/A".toList)
  let sec1 := if sec0 = "nan".toList ∨ sec0 = [] then "placeholder".toList else sec0
  let title0 := normField (it.item.getD "N/A".toList)
  let title1 := if title0 = "nan".toList ∨ title0 = [] then "unnamed item".toList else title0
  let notes0 := normField (it.notes.getD "None".toList)
  let sec := if ignoreBrackets then stripBrackets sec1 else sec1
  let title := if ignoreBrackets then stripBrackets title1 else title1
  let notes := if ignoreBrackets then stripBrackets notes0 else notes0
  let entry := "- Item: ".toList ++ title ++ ", Section: \"".toList ++ sec ++ "\"".toList
  if pyLower notes ≠ "nan".toList ∧ notes ≠ [] then
    entry ++ ", Notes: \"".toList ++ notes ++ "\"".toList
  else entry

/-- The item line exactly as claim C9 states it: title quoted, notes omitted
exactly when empty or the literal string `"nan"`, fields normalised by the
newline/bullet replacement. -/
def claimC9Entry (it : Row) : List Char :=
  let title := normField (it.item.getD "N/A".toList)
  let sec := normField (it.sect.getD "N/A".toList)
  let notes := normField (it.notes.getD "None".toList)
  let entry := "- Item: \"".toList ++ title ++ "\", Section: \"".toList ++ sec ++ "\"".toList
  if notes ≠ [] ∧ notes ≠ "nan".toList then
    entry ++ ", Notes: \"".toList ++ notes ++ "\"".toList
  else entry

/-- The normalised section value inserted into the line. -/
def sectionValue (ib : Bool) (it : Row) : List Char :=
  let v := normField (it.sect.getD "N/A".toList)
  let w := if v = "nan".toList ∨ v = [] then "placeholder".toList else v
  if ib then stripBrackets w else w

/-- The normalised title value inserted into the line. -/
def titleValue (ib : Bool) (it : Row) : List Char :=
  let v := normField (it.item.getD "N/A".toList)
  let w := if v = "nan".toList ∨ v = [] then "unnamed item".toList else v
  if ib then stripBrackets w else w

/-- The normalised notes value inserted into the line. -/
def notesValue (ib : Bool) (it : Row) : List Char :=
  let v := normField (it.notes.getD "None".toList)
  if ib then stripBrackets v else v

/-- The item line as amended: title unquoted, and the notes clause omitted
exactly when the normalised notes value is empty or case-insensitively
`"nan"`. -/
def amendedItemLine (ib : Bool) (it : Row) : List Char :=
  let base := "- Item: ".toList ++ titleValue ib it ++ ", Section: \"".toList ++
    sectionValue ib it ++ "\"".toList
  if notesValue ib it = [] ∨ pyLower (notesValue ib it) = "nan".toList then base
  else base ++ ", Notes: \"".toList ++ notesValue ib it ++ "\"".toList

/-- `items_text`: the sorted group rendered one entry per line
(`items_text += entry + "\n"` after `items.sort(...)`). -/
def itemsText (ib : Bool) (items : List Row) : List Char :=
  ((sortRows items).map (fun it => buildEntry ib it ++ ['\n'])).flatten

/-- Observable events of one `_run_generation` worker run (`kivybackend.py`):
`tok s` is a call of the caller's live-token callback `token_cb(s)`,
`chk b` is one `cancel_event.is_set()` observation returning `b`, and
`done report dates` is the completion callback `done_cb(report, dates)`.
Debug/console output (`debug_cb` / `print`) carries no callback obligations
of the claims and is not recorded. -/
inductive Ev where
  | tok : List Char → Ev
  | chk : Bool → Ev
  | done : List Char → List (List Char) → Ev
deriving DecidableEq

/-- `cancel_event and cancel_event.is_set()`: the cancellation flag is
modelled as the sequence of values returned by successive `is_set()` calls
(`none` models `cancel_event is None`: no observation happens).  Returns the
recorded events, the observed value and the next observation index. -/
def checkCancel (cancel : Option (Nat → Bool)) (n : Nat) : List Ev × Bool × Nat :=
  match cancel with
  | none => ([], false, n)
  | some f => ([Ev.chk (f n)], f n, n + 1)

/-- The pass-1 streaming loop: per chunk, check cancellation (returning
`none` immediately when set), forward the raw non-empty token to `token_cb`,
and accumulate `raw_summary += token`.  Returns events, the next observation
index, and `some raw_summary` unless cancelled. -/
def pass1Loop (cancel : Option (Nat → Bool)) :
    List (List Char) → Nat → List Char → List Ev × Nat × Option (List Char)
  | [], n, raw => ([], n, some raw)
  | t :: ts, n, raw =>
      match checkCancel cancel n with
      | (cev, true, n1) => (cev, n1, none)
      | (cev, false, n1) =>
          match pass1Loop cancel ts n1 (raw ++ t) with
          | (evr, n2, res) =>
              (cev ++ (if t = [] then [] else [Ev.tok t]) ++ evr, n2, res)

/-- The pass-2 streaming loop: per chunk, check cancellation (returning
`none` immediately when set); for a non-empty token, forward the raw token
to `token_cb`, filter it through the run's `GUITokenFilter`, and append the
non-empty filtered output to `full_output`.  Returns events, the next
observation index, and `some (filter state, full_output)` unless
cancelled. -/
def pass2Loop (cancel : Option (Nat → Bool)) :
    List (List Char) → Nat → FilterState → List Char →
      List Ev × Nat × Option (FilterState × List Char)
  | [], n, fs, out => ([], n, some (fs, out))
  | t :: ts, n, fs, out =>
      match checkCancel cancel n with
      | (cev, true, n1) => (cev, n1, none)
      | (cev, false, n1) =>
          if t = [] then
            match pass2Loop cancel ts n1 fs out with
            | (evr, n2, res) => (cev ++ evr, n2, res)
          else
            match pass2Loop cancel ts n1 (filter_token fs t).2
                (if (filter_token fs t).1 = [] then out else out ++ (filter_token fs t).1) with
            | (evr, n2, res) => (cev ++ Ev.tok t :: evr, n2, res)

/-- The `"\n\n"` date-group separator. -/
def nlnl : List Char := "\n\n".toList

/-- The per-group loop of `_run_generation` over `ordered_dates`: check
cancellation before each group, run pass 1 (the model's pass-1 stream for
group `i` is `p1 i`), run pass 2 through the shared run-level filter, then
send the separator to `token_cb` and append it to `full_output`.  Prompt
construction and `_extract_clean_summary` influence only the text sent to
the external model (already abstracted by `p1`/`p2`) and produce no events.
Returns events, the next observation index, and `some (filter state,
full_output)` unless cancelled. -/
def runGroups (p1 p2 : Nat → List (List Char)) (cancel : Option (Nat → Bool)) :
    List (List Char) → Nat → Nat → FilterState → List Char →
      List Ev × Nat × Option (FilterState × List Char)
  | [], _, n, fs, out => ([], n, some (fs, out))
  | _ :: rest, i, n, fs, out =>
      match checkCancel cancel n with
      | (cev, true, n1) => (cev, n1, none)
      | (cev, false, n1) =>
          match pass1Loop cancel (p1 i) n1 [] with
          | (ev1, n2, none) => (cev ++ ev1, n2, none)
          | (ev1, n2, some _) =>
              match pass2Loop cancel (p2 i) n2 fs out with
              | (ev2, n3, none) => (cev ++ ev1 ++ ev2, n3, none)
              | (ev2, n3, some (fs2, out2)) =>
                  match runGroups p1 p2 cancel rest (i + 1) n3 fs2 (out2 ++ nlnl) with
                  | (evr, n4, res) =>
                      (cev ++ ev1 ++ ev2 ++ Ev.tok nlnl :: evr, n4, res)

/-- One whole `_run_generation` run: group the rows, run the per-group loop
with a fresh `GUITokenFilter` and empty `full_output`, and - unless a final
cancellation check fires - invoke `done_cb(full_output, ordered_dates)`. -/
def runGen (rows : List Row) (p1 p2 : Nat → List (List Char))
    (cancel : Option (Nat → Bool)) : List Ev :=
  match runGroups p1 p2 cancel (orderedDates rows) 0 0 initFilter [] with
  | (evs, _, none) => evs
  | (evs, n, some (_, out)) =>
      match checkCancel cancel n with
      | (cev, true, _) => evs ++ cev
      | (cev, false, _) => evs ++ cev ++ [Ev.done out (orderedDates rows)]

/-- The texts delivered to the live-token callback, in order. -/
def sinkTexts (evs : List Ev) : List (List Char) :=
  evs.filterMap (fun e =>
    match e with
    | Ev.tok s => some s
    | _ => none)

/-- The errors `generate_report` raises synchronously, before the worker
thread is spawned. -/
inductive GenError where
  | emptyInput
  | modelNotReady
deriving DecidableEq

/-- `AgendaBackend.generate_report`: raise `ValueError` when no rows were
passed (`if not selected_rows`), raise `RuntimeError` when the model is not
loaded (`if self.llm_model is None`), otherwise hand `list(selected_rows)`
to the worker thread.  `Except.error` models the synchronous raise (no
thread is spawned, no generation state exists); `Except.ok` carries the rows
the spawned worker receives. -/
def generate_report (selectedRows : List Row) (modelLoaded : Bool) :
    Except GenError (List Row) :=
  if selectedRows = [] then Except.error GenError.emptyInput
  else if modelLoaded = false then Except.error GenError.modelNotReady
  else Except.ok selectedRows

/-- No completion callback occurs in the event list. -/
def NoDoneEv (evs : List Ev) : Prop := ∀ r ds, Ev.done r ds ∉ evs

/-- No cancellation check in the event list ever observed the flag set. -/
def NoStopEv (evs : List Ev) : Prop := Ev.chk true ∉ evs

/-- The event list ends with the first (and only) set-flag observation. -/
def StopsAtEnd (evs : List Ev) : Prop :=
  ∃ p, evs = p ++ [Ev.chk true] ∧ Ev.chk true ∉ p

theorem pyFind_none_iff_splitOnFirst_none (pat : List Char) :
    ∀ s : List Char, pyFind pat s = none ↔ splitOnFirst pat s = none := by
  intro s
  induction s with
  | nil => simp [pyFind, splitOnFirst]
  | cons c rest ih =>
      cases hp : pat.isPrefixOf (c :: rest) with
      | true => simp [pyFind, splitOnFirst, hp]
      | false =>
          simp only [pyFind, splitOnFirst, hp, Bool.false_eq_true, if_false,
            Option.map_eq_none']
          exact ih

theorem pyFind_some_splitOnFirst (pat : List Char) :
    ∀ (s : List Char) (i : Nat), pyFind pat s = some i →
      splitOnFirst pat s = some (s.take i, s.drop (i + pat.length)) := by
  intro s
  induction s with
  | nil =>
      intro i h
      cases hp : pat.isPrefixOf ([] : List Char) with
      | true =>
          simp only [pyFind, hp, if_true, Option.some_inj] at h
          subst h
          simp [splitOnFirst, hp]
      | false => simp [pyFind, hp] at h
  | cons c rest ih =>
      intro i h
      cases hp : pat.isPrefixOf (c :: rest) with
      | true =>
          simp only [pyFind, hp, if_true, Option.some_inj] at h
          subst h
          simp [splitOnFirst, hp]
      | false =>
          simp only [pyFind, hp, Bool.false_eq_true, if_false] at h
          cases hpf : pyFind pat rest with
          | none => rw [hpf] at h; simp at h
          | some j =>
              rw [hpf] at h
              simp only [Option.map_some', Option.some_inj] at h
              subst h
              have hs := ih j hpf
              simp only [splitOnFirst, hp, Bool.false_eq_true, if_false, hs,
                Option.map_some', Option.some_inj]
              have h1 : List.take (j + 1) (c :: rest) = c :: List.take j rest := rfl
              have h2 : List.drop (j + 1 + pat.length) (c :: rest) =
                  List.drop (j + pat.length) rest := by
                have hadd : j + 1 + pat.length = (j + pat.length) + 1 := by omega
                rw [hadd]
                rfl
              rw [h1, h2]

/-- A successful `find` exhibits the pattern as an infix of the string. -/
theorem pyFind_some_occurrence (pat : List Char) :
    ∀ (s : List Char) (i : Nat), pyFind pat s = some i → pat <:+: s := by
  intro s
  induction s with
  | nil =>
      intro i h
      cases hp : pat.isPrefixOf ([] : List Char) with
      | true => exact (List.isPrefixOf_iff_prefix.mp hp).isInfix
      | false => simp [pyFind, hp] at h
  | cons c rest ih =>
      intro i h
      cases hp : pat.isPrefixOf (c :: rest) with
      | true => exact (List.isPrefixOf_iff_prefix.mp hp).isInfix
      | false =>
          simp only [pyFind, hp, Bool.false_eq_true, if_false] at h
          cases hpf : pyFind pat rest with
          | none => rw [hpf] at h; simp at h
          | some j =>
              exact (ih j hpf).trans (List.infix_cons (List.infix_refl rest))

theorem pyFind_none_of_no_occurrence {pat s : List Char} (h : ¬ pat <:+: s) :
    pyFind pat s = none := by
  cases hf : pyFind pat s with
  | none => rfl
  | some i => exact absurd (pyFind_some_occurrence pat s i hf) h

theorem filterLoopF_fuel_irrelevant :
    ∀ (f1 f2 : Nat) (it : Bool) (buf : List Char),
      buf.length < f1 → buf.length < f2 →
      filterLoopF f1 it buf = filterLoopF f2 it buf := by
  intro f1
  induction f1 with
  | zero => intro f2 it buf h1 _; exact absurd h1 (Nat.not_lt_zero _)
  | succ f1 ih =>
      intro f2 it buf h1 h2
      cases buf with
      | nil =>
          cases f2 with
          | zero => exact absurd h2 (by omega)
          | succ f2 => cases it <;> rfl
      | cons b bs =>
          cases f2 with
          | zero => exact absurd h2 (by omega)
          | succ f2 =>
              have hct : closeTag.length = 8 := rfl
              have hot : openTag.length = 7 := rfl
              simp only [List.length_cons] at h1 h2
              cases it with
              | true =>
                  cases hf : pyFind closeTag (b :: bs) with
                  | none =>
                      calc filterLoopF (f1 + 1) true (b :: bs)
                          = ([], ⟨[], true⟩) := by
                            simp only [filterLoopF]
                            rw [hf]
                        _ = filterLoopF (f2 + 1) true (b :: bs) := by
                            simp only [filterLoopF]
                            rw [hf]
                  | some e =>
                      have hd : ((b :: bs).drop (e + closeTag.length)).length ≤ bs.length := by
                        simp only [List.length_drop, List.length_cons]
                        omega
                      calc filterLoopF (f1 + 1) true (b :: bs)
                          = filterLoopF f1 false ((b :: bs).drop (e + closeTag.length)) := by
                            simp only [filterLoopF]
                            rw [hf]
                        _ = filterLoopF f2 false ((b :: bs).drop (e + closeTag.length)) :=
                            ih f2 false _ (by omega) (by omega)
                        _ = filterLoopF (f2 + 1) true (b :: bs) := by
                            simp only [filterLoopF]
                            rw [hf]
              | false =>
                  cases hf : pyFind openTag (b :: bs) with
                  | none =>
                      calc filterLoopF (f1 + 1) false (b :: bs)
                          = (b :: bs, ⟨[], false⟩) := by
                            simp only [filterLoopF]
                            rw [hf]
                        _ = filterLoopF (f2 + 1) false (b :: bs) := by
                            simp only [filterLoopF]
                            rw [hf]
                  | some s =>
                      have hd : ((b :: bs).drop (s + openTag.length)).length ≤ bs.length := by
                        simp only [List.length_drop, List.length_cons]
                        omega
                      calc filterLoopF (f1 + 1) false (b :: bs)
                          = ((b :: bs).take s ++
                                (filterLoopF f1 true ((b :: bs).drop (s + openTag.length))).1,
                              (filterLoopF f1 true ((b :: bs).drop (s + openTag.length))).2) := by
                            simp only [filterLoopF]
                            rw [hf]
                        _ = ((b :: bs).take s ++
                                (filterLoopF f2 true ((b :: bs).drop (s + openTag.length))).1,
                              (filterLoopF f2 true ((b :: bs).drop (s + openTag.length))).2) := by
                            rw [ih f2 true _ (by omega) (by omega)]
                        _ = filterLoopF (f2 + 1) false (b :: bs) := by
                            simp only [filterLoopF]
                            rw [hf]

theorem filterLoopF_buf_empty :
    ∀ (fuel : Nat) (it : Bool) (buf : List Char), buf.length < fuel →
      ((filterLoopF fuel it buf).2).buf = [] := by
  intro fuel
  induction fuel with
  | zero => intro it buf h; exact absurd h (Nat.not_lt_zero _)
  | succ fuel ih =>
      intro it buf h
      cases buf with
      | nil => cases it <;> rfl
      | cons b bs =>
          have hct : closeTag.length = 8 := rfl
          have hot : openTag.length = 7 := rfl
          simp only [List.length_cons] at h
          cases it with
          | true =>
              cases hf : pyFind closeTag (b :: bs) with
              | none =>
                  have he : filterLoopF (fuel + 1) true (b :: bs) = ([], ⟨[], true⟩) := by
                    simp only [filterLoopF]
                    rw [hf]
                  rw [he]
              | some e =>
                  have he : filterLoopF (fuel + 1) true (b :: bs) =
                      filterLoopF fuel false ((b :: bs).drop (e + closeTag.length)) := by
                    simp only [filterLoopF]
                    rw [hf]
                  rw [he]
                  refine ih false _ ?_
                  simp only [List.length_drop, List.length_cons]
                  omega
          | false =>
              cases hf : pyFind openTag (b :: bs) with
              | none =>
                  have he : filterLoopF (fuel + 1) false (b :: bs) = (b :: bs, ⟨[], false⟩) := by
                    simp only [filterLoopF]
                    rw [hf]
                  rw [he]
              | some s =>
                  have he : filterLoopF (fuel + 1) false (b :: bs) =
                      ((b :: bs).take s ++
                          (filterLoopF fuel true ((b :: bs).drop (s + openTag.length))).1,
                        (filterLoopF fuel true ((b :: bs).drop (s + openTag.length))).2) := by
                    simp only [filterLoopF]
                    rw [hf]
                  rw [he]
                  refine ih true _ ?_
                  simp only [List.length_drop, List.length_cons]
                  omega

theorem filterLoop_buf_empty (inThink : Bool) (l : List Char) :
    ((filterLoop inThink l).2).buf = [] :=
  filterLoopF_buf_empty (l.length + 1) inThink l (Nat.lt_succ_self _)

theorem filter_token_buf_empty (st : FilterState) (token : List Char)
    (h : st.buf = []) : ((filter_token st token).2).buf = [] := by
  unfold filter_token
  by_cases ht : token = []
  · simp [ht, h]
  · simp only [ht, if_false]
    exact filterLoop_buf_empty st.inThink (st.buf ++ token)

theorem runFilter_buf_empty (toks : List (List Char)) :
    ∀ st : FilterState, st.buf = [] → ((runFilter st toks).2).buf = [] := by
  induction toks with
  | nil => intro st h; simpa [runFilter] using h
  | cons t ts ih =>
      intro st h
      rw [runFilter]
      exact ih (filter_token st t).2 (filter_token_buf_empty st t h)

/-- C10: after every `filter_token` call the filter's pending buffer is
empty: the scanning loop always ends by emitting or discarding the whole
buffer, so no partial-marker bytes are carried over to the next call.  The
first conjunct covers a single call from any reachable state (reachable
states have an empty buffer), the second covers every run started from a
fresh filter. -/
theorem filter_buffer_always_empty :
    (∀ (st : FilterState) (token : List Char), st.buf = [] →
        ((filter_token st token).2).buf = []) ∧
    (∀ toks : List (List Char), ((runFilter initFilter toks).2).buf = []) :=
  ⟨filter_token_buf_empty, fun toks => runFilter_buf_empty toks initFilter rfl⟩

/-- Witness for `filter_buffer_always_empty` at a concrete call. -/
theorem filter_buffer_always_empty_witness :
    ((filter_token ⟨[], false⟩ "a<think>b".toList).2).buf = [] :=
  filter_buffer_always_empty.1 ⟨[], false⟩ "a<think>b".toList rfl

theorem filterLoop_of_no_open {buf : List Char} (h : pyFind openTag buf = none) :
    filterLoop false buf = (buf, ⟨[], false⟩) := by
  match buf with
  | [] => rfl
  | b :: bs =>
      show filterLoopF ((b :: bs).length + 1) false (b :: bs) = (b :: bs, ⟨[], false⟩)
      simp only [filterLoopF]
      rw [h]

theorem runFilter_clean_aux (toks : List (List Char))
    (h : ∀ t ∈ toks, ¬ (openTag <:+: t)) :
    runFilter ⟨[], false⟩ toks = (toks.flatten, ⟨[], false⟩) := by
  induction toks with
  | nil => simp [runFilter]
  | cons t ts ih =>
      have hts : ∀ u ∈ ts, ¬ (openTag <:+: u) := fun u hu => h u (List.mem_cons_of_mem t hu)
      have hrec := ih hts
      rw [runFilter]
      by_cases ht : t = []
      · subst ht
        simp [filter_token, hrec]
      · have hft : filter_token ⟨[], false⟩ t = (t, ⟨[], false⟩) := by
          unfold filter_token
          simp only [ht, if_false]
          have hfind : pyFind openTag ((⟨[], false⟩ : FilterState).buf ++ t) = none := by
            simpa using pyFind_none_of_no_occurrence (h t (List.mem_cons_self t ts))
          simpa using filterLoop_of_no_open hfind
        rw [hft, hrec]
        simp

/-- C7: chunking invariance on marker-free text.  If the concatenation of a
sequence of `filter_token` arguments contains neither the opening nor the
closing think-marker, a fresh `GUITokenFilter` returns every chunk verbatim,
so the concatenated outputs equal the concatenated input. -/
theorem filter_chunking_invariant_on_clean_text (toks : List (List Char))
    (hOpen : ¬ (openTag <:+: toks.flatten))
    (hClose : ¬ (closeTag <:+: toks.flatten)) :
    (runFilter initFilter toks).1 = toks.flatten := by
  have h : ∀ t ∈ toks, ¬ (openTag <:+: t) := by
    intro t ht hinf
    exact hOpen (hinf.trans (List.infix_of_mem_flatten ht))
  rw [initFilter, runFilter_clean_aux toks h]

/-- Witness for `filter_chunking_invariant_on_clean_text` on a concrete
chunked text. -/
theorem filter_chunking_invariant_on_clean_text_witness :
    (runFilter initFilter ["Hel".toList, "lo <thi".toList, "world".toList]).1 =
      (["Hel".toList, "lo <thi".toList, "world".toList] : List (List Char)).flatten :=
  filter_chunking_invariant_on_clean_text _ (by decide) (by decide)

/-- C1 (code behaviour at the failing input): splitting the input
`"A<think>B</think>C"` into the two calls `"A<th"` and `"ink>B</think>C"`
makes the filter emit the whole input unchanged — the buffer is cleared at
the end of every call, so the partial marker `"<th"` is flushed as visible
output instead of being retained, and the claimed output `"AC"` is not
produced. -/
theorem filter_split_marker_leaks :
    (runFilter initFilter ["A<th".toList, "ink>B</think>C".toList]).1 =
      "A<think>B</think>C".toList ∧
    "A<think>B</think>C".toList ≠ "AC".toList := by
  constructor
  · decide
  · decide

theorem takeLine_remainder_le : ∀ s : List Char, ((takeLine s).2).length ≤ s.length := by
  intro s
  induction s with
  | nil => simp [takeLine]
  | cons c rest ih =>
      by_cases hb : pyLineBreak c
      · by_cases hcr : c = '\r' ∧ rest.head? = some '\n'
        · have ht : takeLine (c :: rest) = ([], rest.tail) := by
            simp only [takeLine]
            rw [if_pos hb, if_pos hcr]
          rw [ht]
          cases rest <;> simp <;> omega
        · have ht : takeLine (c :: rest) = ([], rest) := by
            simp only [takeLine]
            rw [if_pos hb, if_neg hcr]
          rw [ht]
          simp
      · have ht : takeLine (c :: rest) = (c :: (takeLine rest).1, (takeLine rest).2) := by
          simp only [takeLine]
          rw [if_neg hb]
        rw [ht]
        simp only [List.length_cons]
        exact Nat.le_succ_of_le ih

theorem takeLine_cons_remainder_le (c : Char) (rest : List Char) :
    ((takeLine (c :: rest)).2).length ≤ rest.length := by
  by_cases hb : pyLineBreak c
  · by_cases hcr : c = '\r' ∧ rest.head? = some '\n'
    · have ht : takeLine (c :: rest) = ([], rest.tail) := by
        simp only [takeLine]
        rw [if_pos hb, if_pos hcr]
      rw [ht]
      cases rest <;> simp <;> omega
    · have ht : takeLine (c :: rest) = ([], rest) := by
        simp only [takeLine]
        rw [if_pos hb, if_neg hcr]
      rw [ht]
  · have ht : takeLine (c :: rest) = (c :: (takeLine rest).1, (takeLine rest).2) := by
      simp only [takeLine]
      rw [if_neg hb]
    rw [ht]
    exact takeLine_remainder_le rest

theorem pySplitlinesF_fuel_irrelevant :
    ∀ (f1 f2 : Nat) (s : List Char), s.length ≤ f1 → s.length ≤ f2 →
      pySplitlinesF f1 s = pySplitlinesF f2 s := by
  intro f1
  induction f1 with
  | zero =>
      intro f2 s h1 _
      have : s = [] := List.eq_nil_of_length_eq_zero (Nat.le_zero.mp h1)
      subst this
      cases f2 <;> rfl
  | succ f1 ih =>
      intro f2 s h1 h2
      cases s with
      | nil => cases f2 <;> rfl
      | cons c rest =>
          cases f2 with
          | zero => simp at h2
          | succ f2 =>
              simp only [pySplitlinesF]
              have hr : ((takeLine (c :: rest)).2).length ≤ rest.length :=
                takeLine_cons_remainder_le c rest
              simp only [List.length_cons] at h1 h2
              rw [ih f2 _ (by omega) (by omega)]

theorem filter_strip_comm (L : List (List Char)) :
    ((L.filter (fun ln => decide (pyStrip ln ≠ []))).map pyStrip) =
      ((L.map pyStrip).filter (fun ln => decide (ln ≠ []))) := by
  induction L with
  | nil => rfl
  | cons a L ih =>
      by_cases ha : pyStrip a = []
      · have h1 : List.filter (fun ln => decide (pyStrip ln ≠ [])) (a :: L) =
            List.filter (fun ln => decide (pyStrip ln ≠ [])) L := by
          rw [List.filter_cons]
          simp [ha]
        have h2 : List.filter (fun ln => decide (ln ≠ [])) (List.map pyStrip (a :: L)) =
            List.filter (fun ln => decide (ln ≠ [])) (List.map pyStrip L) := by
          rw [List.map_cons, List.filter_cons]
          simp [ha]
        rw [h1, h2, ih]
      · have h1 : List.filter (fun ln => decide (pyStrip ln ≠ [])) (a :: L) =
            a :: List.filter (fun ln => decide (pyStrip ln ≠ [])) L := by
          rw [List.filter_cons]
          simp [ha]
        have h2 : List.filter (fun ln => decide (ln ≠ [])) (List.map pyStrip (a :: L)) =
            pyStrip a :: List.filter (fun ln => decide (ln ≠ [])) (List.map pyStrip L) := by
          rw [List.map_cons, List.filter_cons]
          simp [ha]
        rw [h1, h2, List.map_cons, ih]

/-- C5: clean-summary extraction behaves as specified: the text after the
first `"</think>"` when one occurs (otherwise the whole text), with every
line stripped of surrounding whitespace, blank lines dropped, and the rest
rejoined with single newlines; in particular the spec's concrete example
produces exactly `"Line1\nLine2"`, and marker-free text is only
blank-line-stripped. -/
theorem extract_clean_summary_correct :
    (∀ raw : List Char, extract_clean_summary raw = spec_clean_summary raw) ∧
    extract_clean_summary "...reasoning...</think>\nLine1\nLine2\n".toList =
      "Line1\nLine2".toList ∧
    (∀ raw : List Char, ¬ (closeTag <:+: raw) →
      extract_clean_summary raw =
        joinNL (((pySplitlines raw).map pyStrip).filter (fun ln => decide (ln ≠ [])))) := by
  refine ⟨?_, by decide, ?_⟩
  · intro raw
    cases h : pyFind closeTag raw with
    | none =>
        have h2 : splitOnFirst closeTag raw = none :=
          (pyFind_none_iff_splitOnFirst_none closeTag raw).mp h
        simp only [extract_clean_summary, spec_clean_summary, h, h2]
        exact congrArg joinNL (filter_strip_comm _)
    | some e =>
        have h2 : splitOnFirst closeTag raw = some (raw.take e, raw.drop (e + closeTag.length)) :=
          pyFind_some_splitOnFirst closeTag raw e h
        have h8 : e + closeTag.length = e + 8 := rfl
        simp only [extract_clean_summary, spec_clean_summary, h, h2, h8]
        exact congrArg joinNL (filter_strip_comm _)
  · intro raw h
    have hn : pyFind closeTag raw = none := pyFind_none_of_no_occurrence h
    simp only [extract_clean_summary, hn]
    exact congrArg joinNL (filter_strip_comm _)

/-- Witness for `extract_clean_summary_correct` (no-marker fallback) at a
concrete input. -/
theorem extract_clean_summary_correct_witness :
    extract_clean_summary "  Line1 \n\n Line2".toList =
      joinNL (((pySplitlines "  Line1 \n\n Line2".toList).map pyStrip).filter
        (fun ln => decide (ln ≠ []))) :=
  extract_clean_summary_correct.2.2 "  Line1 \n\n Line2".toList (by decide)

theorem appendGroup_keys (d : List Char) (r : Row) :
    ∀ g : List (List Char × List Row), (appendGroup d r g).map Prod.fst = g.map Prod.fst := by
  intro g
  induction g with
  | nil => rfl
  | cons e es ih =>
      by_cases he : e.1 = d
      · simp [appendGroup, he]
      · simp [appendGroup, he, ih]

theorem lookupGroup_none_iff (d : List Char) :
    ∀ g : List (List Char × List Row), lookupGroup d g = none ↔ d ∉ g.map Prod.fst := by
  intro g
  induction g with
  | nil => simp [lookupGroup]
  | cons e es ih =>
      by_cases he : e.1 = d
      · simp [lookupGroup, he]
      · simp only [lookupGroup, he, if_false, List.map_cons, List.mem_cons]
        rw [ih]
        constructor
        · intro h hmem
          rcases hmem with hmem | hmem
          · exact he hmem.symm
          · exact h hmem
        · intro h hmem
          exact h (Or.inr hmem)

theorem groupByDate_fold (rows : List Row) :
    ∀ (dates : List (List Char)) (g : List (List Char × List Row)),
      g.map Prod.fst = dates →
      (rows.foldl groupStep (dates, g)).1 =
        dates ++ firstSeenFrom dates (rows.map Row.date) := by
  induction rows with
  | nil => intro dates g _; simp [firstSeenFrom]
  | cons r rows ih =>
      intro dates g hkeys
      cases hl : lookupGroup r.date g with
      | none =>
          have hmem : r.date ∉ dates := by
            have := (lookupGroup_none_iff r.date g).mp hl
            rwa [hkeys] at this
          have hkeys' : (appendGroup r.date r (g ++ [(r.date, [])])).map Prod.fst =
              dates ++ [r.date] := by
            rw [appendGroup_keys]
            simp [hkeys]
          have := ih (dates ++ [r.date]) (appendGroup r.date r (g ++ [(r.date, [])])) hkeys'
          simp only [List.foldl_cons, groupStep, hl, this, List.map_cons, firstSeenFrom,
            hmem, if_false]
          simp
      | some grp =>
          have hmem : r.date ∈ dates := by
            by_contra hno
            have : lookupGroup r.date g = none := by
              rw [lookupGroup_none_iff, hkeys]
              exact hno
            rw [this] at hl
            cases hl
          have hkeys' : (appendGroup r.date r g).map Prod.fst = dates := by
            rw [appendGroup_keys]; exact hkeys
          have := ih dates (appendGroup r.date r g) hkeys'
          simp only [List.foldl_cons, groupStep, hl, this, List.map_cons, firstSeenFrom,
            hmem, if_true]

theorem firstSeenFrom_eq_filter (ds : List (List Char)) :
    ∀ seen : List (List Char),
      firstSeenFrom seen ds = (firstSeen ds).filter (fun x => decide (x ∉ seen)) := by
  induction ds with
  | nil => intro seen; rfl
  | cons d ds ih =>
      intro seen
      by_cases hd : d ∈ seen
      · have h1 : firstSeenFrom seen (d :: ds) = firstSeenFrom seen ds := by
          simp [firstSeenFrom, hd]
        rw [h1, ih seen]
        have h2 : (firstSeen (d :: ds)).filter (fun x => decide (x ∉ seen)) =
            ((firstSeen ds).filter (fun x => decide (x ≠ d))).filter
              (fun x => decide (x ∉ seen)) := by
          simp [firstSeen, List.filter_cons, hd]
        rw [h2, List.filter_comm]
        symm
        rw [List.filter_eq_self]
        intro a ha
        have has : a ∉ seen := by
          have := List.of_mem_filter ha
          simpa using this
        have had : a ≠ d := fun he => has (he ▸ hd)
        simpa using had
      · have h1 : firstSeenFrom seen (d :: ds) =
            d :: firstSeenFrom (seen ++ [d]) ds := by
          simp [firstSeenFrom, hd]
        rw [h1, ih (seen ++ [d])]
        have h2 : (firstSeen (d :: ds)).filter (fun x => decide (x ∉ seen)) =
            d :: ((firstSeen ds).filter (fun x => decide (x ≠ d))).filter
              (fun x => decide (x ∉ seen)) := by
          simp [firstSeen, List.filter_cons, hd]
        rw [h2]
        congr 1
        rw [List.filter_filter]
        apply List.filter_congr
        intro x _
        by_cases hx : x ∈ seen
        · simp [hx]
        · by_cases hxd : x = d
          · simp [hx, hxd]
          · simp [hx, hxd]

theorem firstSeen_nodup : ∀ ds : List (List Char), (firstSeen ds).Nodup := by
  intro ds
  induction ds with
  | nil => simp [firstSeen]
  | cons d ds ih =>
      simp only [firstSeen, List.nodup_cons]
      constructor
      · intro hmem
        have := List.of_mem_filter hmem
        simp at this
      · exact List.Nodup.filter _ ih

theorem orderedDates_eq_firstSeen (rows : List Row) :
    orderedDates rows = firstSeen (rows.map Row.date) := by
  have h := groupByDate_fold rows [] [] rfl
  unfold orderedDates groupByDate
  rw [h, firstSeenFrom_eq_filter]
  simp

theorem strLe_refl : ∀ s : List Char, strLe s s = true := by
  intro s
  induction s with
  | nil => rfl
  | cons a as ih => simp [strLe, ih]

theorem strLe_nil_right : ∀ s : List Char, strLe s [] = true → s = [] := by
  intro s h
  cases s with
  | nil => rfl
  | cons a as => simp [strLe] at h

theorem strLe_total : ∀ a b : List Char, strLe a b = true ∨ strLe b a = true := by
  intro a
  induction a with
  | nil => intro b; left; rfl
  | cons x xs ih =>
      intro b
      cases b with
      | nil => right; rfl
      | cons y ys =>
          by_cases hxy : x = y
          · subst hxy
            rcases ih ys with h | h
            · left; simpa [strLe] using h
            · right; simpa [strLe] using h
          · rcases lt_or_gt_of_ne hxy with h | h
            · left
              simp [strLe, hxy, h]
            · right
              have hyx : y ≠ x := fun he => hxy he.symm
              simp [strLe, hyx, h]

theorem strLe_trans :
    ∀ a b c : List Char, strLe a b = true → strLe b c = true → strLe a c = true := by
  intro a
  induction a with
  | nil => intro b c _ _; rfl
  | cons x xs ih =>
      intro b c h1 h2
      cases b with
      | nil => simp [strLe] at h1
      | cons y ys =>
          cases c with
          | nil => simp [strLe] at h2
          | cons z zs =>
              simp only [strLe] at h1 h2 ⊢
              by_cases hxy : x = y
              · rw [if_pos hxy] at h1
                by_cases hyz : y = z
                · rw [if_pos hyz] at h2
                  rw [if_pos (hxy.trans hyz)]
                  exact ih ys zs h1 h2
                · rw [if_neg hyz] at h2
                  have hxz : x ≠ z := fun h => hyz (by rw [← hxy]; exact h)
                  rw [if_neg hxz]
                  rw [decide_eq_true_eq] at h2 ⊢
                  rwa [hxy]
              · rw [if_neg hxy, decide_eq_true_eq] at h1
                by_cases hyz : y = z
                · have hxz : x ≠ z := fun h => hxy (h.trans hyz.symm)
                  rw [if_neg hxz, decide_eq_true_eq]
                  rw [← hyz]
                  exact h1
                · rw [if_neg hyz, decide_eq_true_eq] at h2
                  have hlt := lt_trans h1 h2
                  rw [if_neg (ne_of_lt hlt), decide_eq_true_eq]
                  exact hlt

instance totalSectionLe : IsTotal Row sectionLe := ⟨fun a b => strLe_total (sKey a) (sKey b)⟩

instance transSectionLe : IsTrans Row sectionLe :=
  ⟨fun _ _ _ h1 h2 => strLe_trans _ _ _ h1 h2⟩

theorem filter_orderedInsert_eq (k : List Char) (x : Row) (l : List Row) (hx : sKey x = k) :
    (List.orderedInsert sectionLe x l).filter (fun r => decide (sKey r = k)) =
      x :: l.filter (fun r => decide (sKey r = k)) := by
  induction l with
  | nil => simp [List.orderedInsert, hx]
  | cons y ys ih =>
      by_cases hle : sectionLe x y
      · simp [List.orderedInsert, hle, List.filter_cons, hx]
      · have hyk : sKey y ≠ k := by
          intro he
          apply hle
          unfold sectionLe
          rw [hx, he]
          exact strLe_refl k
        simp [List.orderedInsert, hle, List.filter_cons, hyk, ih]

theorem filter_orderedInsert_ne (k : List Char) (x : Row) (l : List Row) (hx : sKey x ≠ k) :
    (List.orderedInsert sectionLe x l).filter (fun r => decide (sKey r = k)) =
      l.filter (fun r => decide (sKey r = k)) := by
  induction l with
  | nil => simp [List.orderedInsert, hx]
  | cons y ys ih =>
      by_cases hle : sectionLe x y
      · simp [List.orderedInsert, hle, List.filter_cons, hx]
      · simp [List.orderedInsert, hle, List.filter_cons, ih]

theorem sortRows_filter_key (l : List Row) (k : List Char) :
    (sortRows l).filter (fun r => decide (sKey r = k)) =
      l.filter (fun r => decide (sKey r = k)) := by
  induction l with
  | nil => rfl
  | cons x xs ih =>
      have hstep : sortRows (x :: xs) = List.orderedInsert sectionLe x (sortRows xs) := rfl
      rw [hstep]
      by_cases hx : sKey x = k
      · rw [filter_orderedInsert_eq k x _ hx, ih, List.filter_cons]
        simp [hx]
      · rw [filter_orderedInsert_ne k x _ hx, ih, List.filter_cons]
        simp [hx]

theorem sorted_empty_key_prefix :
    ∀ l : List Row, List.Sorted sectionLe l →
      l = l.filter (fun r => decide (sKey r = [])) ++
        l.filter (fun r => decide (sKey r ≠ [])) := by
  intro l
  induction l with
  | nil => intro _; rfl
  | cons x xs ih =>
      intro hs
      have htail := ih hs.of_cons
      by_cases hk : sKey x = []
      · have h1 : (x :: xs).filter (fun r => decide (sKey r = [])) =
            x :: xs.filter (fun r => decide (sKey r = [])) := by
          rw [List.filter_cons]
          simp [hk]
        have h2 : (x :: xs).filter (fun r => decide (sKey r ≠ [])) =
            xs.filter (fun r => decide (sKey r ≠ [])) := by
          rw [List.filter_cons]
          simp [hk]
        rw [h1, h2, List.cons_append]
        exact congrArg (x :: ·) htail
      · have hall : ∀ y ∈ xs, sKey y ≠ [] := by
          intro y hy he
          have hle : sectionLe x y := (List.rel_of_sorted_cons hs) y hy
          unfold sectionLe at hle
          rw [he] at hle
          exact hk (strLe_nil_right _ hle)
        have h1 : (x :: xs).filter (fun r => decide (sKey r = [])) = [] := by
          rw [List.filter_eq_nil_iff]
          intro y hy
          rcases List.mem_cons.mp hy with hy | hy
          · subst hy; simp [hk]
          · simp [hall y hy]
        have h2 : (x :: xs).filter (fun r => decide (sKey r ≠ [])) = x :: xs := by
          rw [List.filter_eq_self]
          intro y hy
          rcases List.mem_cons.mp hy with hy | hy
          · subst hy; simp [hk]
          · simp [hall y hy]
        rw [h1, h2, List.nil_append]

/-- C4: within every date group the rows are sorted by the stringified
section key ascending (`items.sort(key=lambda x: str(x.get(..., "")))`):
the result is ordered under `sectionLe`, it is stable (the rows carrying any
fixed key keep their relative input order), rows whose key is the empty
string form a prefix (in input order), and a missing (`none`) or empty
section field has the empty string as its key. -/
theorem section_sort_correct :
    (∀ items : List Row, List.Sorted sectionLe (sortRows items)) ∧
    (∀ (items : List Row) (k : List Char),
      (sortRows items).filter (fun r => decide (sKey r = k)) =
        items.filter (fun r => decide (sKey r = k))) ∧
    (∀ items : List Row,
      sortRows items =
        items.filter (fun r => decide (sKey r = [])) ++
          (sortRows items).filter (fun r => decide (sKey r ≠ []))) ∧
    (∀ (d : List Char) (i nt : Option (List Char)), sKey ⟨d, none, i, nt⟩ = []) ∧
    (∀ (d : List Char) (i nt : Option (List Char)), sKey ⟨d, some [], i, nt⟩ = []) := by
  refine ⟨fun items => List.sorted_insertionSort sectionLe items, sortRows_filter_key,
    ?_, fun _ _ _ => rfl, fun _ _ _ => rfl⟩
  intro items
  have h := sorted_empty_key_prefix (sortRows items) (List.sorted_insertionSort sectionLe items)
  rw [sortRows_filter_key items ([] : List Char)] at h
  exact h

/-- C9 counterexample: for the row with title `T`, section `S` and empty
notes, the code builds `- Item: T, Section: "S"` — the title is not quoted —
while the claimed form is `- Item: "T", Section: "S"`. -/
theorem item_line_counterexample :
    buildEntry false ⟨"1-Jan".toList, some "S".toList, some "T".toList, some []⟩ =
      "- Item: T, Section: \"S\"".toList ∧
    claimC9Entry ⟨"1-Jan".toList, some "S".toList, some "T".toList, some []⟩ =
      "- Item: \"T\", Section: \"S\"".toList ∧
    buildEntry false ⟨"1-Jan".toList, some "S".toList, some "T".toList, some []⟩ ≠
      claimC9Entry ⟨"1-Jan".toList, some "S".toList, some "T".toList, some []⟩ :=
  ⟨by decide, by decide, by decide⟩

/-- C9 as amended: for every row and either bracket-stripping mode, the
description line is exactly
`- Item: <title>, Section: "<section>"[, Notes: "<notes>"]` with the
normalised field values, the Notes clause omitted exactly when the
normalised notes value is empty or case-insensitively `"nan"`. -/
theorem item_line_matches_amended_form :
    ∀ (ib : Bool) (it : Row), buildEntry ib it = amendedItemLine ib it := by
  intro ib it
  by_cases hn : pyLower (notesValue ib it) = "nan".toList
  · simp only [buildEntry, amendedItemLine, sectionValue, titleValue, notesValue, hn]
    simp [notesValue] at hn
    simp [hn]
  · by_cases he : notesValue ib it = []
    · simp only [buildEntry, amendedItemLine, sectionValue, titleValue, notesValue, hn]
      simp [notesValue] at hn he
      simp [hn, he]
    · simp only [buildEntry, amendedItemLine, sectionValue, titleValue, notesValue, hn]
      simp [notesValue] at hn he
      simp [hn, he]

theorem noDoneEv_nil : NoDoneEv [] := by
  intro r ds h
  cases h

theorem noDoneEv_append {a b : List Ev} (ha : NoDoneEv a) (hb : NoDoneEv b) :
    NoDoneEv (a ++ b) := by
  intro r ds h
  rcases List.mem_append.mp h with h | h
  · exact ha r ds h
  · exact hb r ds h

theorem noDoneEv_chk (b : Bool) : NoDoneEv [Ev.chk b] := by
  intro r ds h
  rcases List.mem_cons.mp h with h | h
  · cases h
  · cases h

theorem noDoneEv_tok (s : List Char) : NoDoneEv [Ev.tok s] := by
  intro r ds h
  rcases List.mem_cons.mp h with h | h
  · cases h
  · cases h

theorem noStopEv_nil : NoStopEv [] := by
  intro h
  cases h

theorem noStopEv_append {a b : List Ev} (ha : NoStopEv a) (hb : NoStopEv b) :
    NoStopEv (a ++ b) := by
  intro h
  rcases List.mem_append.mp h with h | h
  · exact ha h
  · exact hb h

theorem noStopEv_chk_false : NoStopEv [Ev.chk false] := by
  intro h
  rcases List.mem_cons.mp h with h | h
  · cases h
  · cases h

theorem noStopEv_tok (s : List Char) : NoStopEv [Ev.tok s] := by
  intro h
  rcases List.mem_cons.mp h with h | h
  · cases h
  · cases h

theorem stopsAtEnd_append {a b : List Ev} (ha : NoStopEv a) (hb : StopsAtEnd b) :
    StopsAtEnd (a ++ b) := by
  obtain ⟨p, hp, hnp⟩ := hb
  exact ⟨a ++ p, by rw [hp, List.append_assoc], fun h => by
    rcases List.mem_append.mp h with h | h
    · exact ha h
    · exact hnp h⟩

theorem stopsAtEnd_chk_true : StopsAtEnd [Ev.chk true] :=
  ⟨[], rfl, noStopEv_nil⟩

theorem checkCancel_noDone (cancel : Option (Nat → Bool)) (n : Nat) :
    NoDoneEv (checkCancel cancel n).1 := by
  cases cancel with
  | none => exact noDoneEv_nil
  | some f => exact noDoneEv_chk (f n)

theorem checkCancel_true_events (cancel : Option (Nat → Bool)) (n : Nat)
    (h : (checkCancel cancel n).2.1 = true) :
    (checkCancel cancel n).1 = [Ev.chk true] := by
  cases cancel with
  | none => simp [checkCancel] at h
  | some f =>
      have hb : f n = true := h
      simp [checkCancel, hb]

theorem checkCancel_false_noStop (cancel : Option (Nat → Bool)) (n : Nat)
    (h : (checkCancel cancel n).2.1 = false) :
    NoStopEv (checkCancel cancel n).1 := by
  cases cancel with
  | none => exact noStopEv_nil
  | some f =>
      have hb : f n = false := h
      show NoStopEv [Ev.chk (f n)]
      rw [hb]
      exact noStopEv_chk_false

theorem pass1Loop_cons (cancel : Option (Nat → Bool)) (t : List Char) (ts : List (List Char))
    (n : Nat) (raw : List Char) :
    pass1Loop cancel (t :: ts) n raw =
      if (checkCancel cancel n).2.1 then
        ((checkCancel cancel n).1, (checkCancel cancel n).2.2, none)
      else
        ((checkCancel cancel n).1 ++ (if t = [] then [] else [Ev.tok t]) ++
            (pass1Loop cancel ts (checkCancel cancel n).2.2 (raw ++ t)).1,
          (pass1Loop cancel ts (checkCancel cancel n).2.2 (raw ++ t)).2) := by
  rcases hc : checkCancel cancel n with ⟨cev, b, n1⟩
  cases b with
  | true =>
      rw [pass1Loop, hc]
      rfl
  | false =>
      rcases hr : pass1Loop cancel ts n1 (raw ++ t) with ⟨evr, n2, res⟩
      rw [pass1Loop, hc]
      simp only [hr]
      rfl

theorem pass2Loop_cons (cancel : Option (Nat → Bool)) (t : List Char) (ts : List (List Char))
    (n : Nat) (fs : FilterState) (out : List Char) :
    pass2Loop cancel (t :: ts) n fs out =
      if (checkCancel cancel n).2.1 then
        ((checkCancel cancel n).1, (checkCancel cancel n).2.2, none)
      else if t = [] then
        ((checkCancel cancel n).1 ++
            (pass2Loop cancel ts (checkCancel cancel n).2.2 fs out).1,
          (pass2Loop cancel ts (checkCancel cancel n).2.2 fs out).2)
      else
        ((checkCancel cancel n).1 ++ Ev.tok t ::
            (pass2Loop cancel ts (checkCancel cancel n).2.2 (filter_token fs t).2
              (if (filter_token fs t).1 = [] then out
                else out ++ (filter_token fs t).1)).1,
          (pass2Loop cancel ts (checkCancel cancel n).2.2 (filter_token fs t).2
            (if (filter_token fs t).1 = [] then out
              else out ++ (filter_token fs t).1)).2) := by
  rcases hc : checkCancel cancel n with ⟨cev, b, n1⟩
  cases b with
  | true =>
      rw [pass2Loop, hc]
      rfl
  | false =>
      cases t with
      | nil =>
          rcases hr : pass2Loop cancel ts n1 fs out with ⟨evr, n2, res⟩
          rw [pass2Loop, hc]
          simp only [hr]
          rfl
      | cons c cs =>
          rcases hr : pass2Loop cancel ts n1 (filter_token fs (c :: cs)).2
              (if (filter_token fs (c :: cs)).1 = [] then out
                else out ++ (filter_token fs (c :: cs)).1) with
            ⟨evr, n2, res⟩
          rw [pass2Loop, hc]
          simp only [hr]
          rfl

theorem runGroups_cons (p1 p2 : Nat → List (List Char)) (cancel : Option (Nat → Bool))
    (md : List Char) (rest : List (List Char)) (i n : Nat) (fs : FilterState)
    (out : List Char) :
    runGroups p1 p2 cancel (md :: rest) i n fs out =
      if (checkCancel cancel n).2.1 then
        ((checkCancel cancel n).1, (checkCancel cancel n).2.2, none)
      else
        match pass1Loop cancel (p1 i) (checkCancel cancel n).2.2 [] with
        | (ev1, n2, none) => ((checkCancel cancel n).1 ++ ev1, n2, none)
        | (ev1, n2, some _) =>
            match pass2Loop cancel (p2 i) n2 fs out with
            | (ev2, n3, none) => ((checkCancel cancel n).1 ++ ev1 ++ ev2, n3, none)
            | (ev2, n3, some (fs2, out2)) =>
                match runGroups p1 p2 cancel rest (i + 1) n3 fs2 (out2 ++ nlnl) with
                | (evr, n4, res) =>
                    ((checkCancel cancel n).1 ++ ev1 ++ ev2 ++ Ev.tok nlnl :: evr, n4, res) := by
  rcases hc : checkCancel cancel n with ⟨cev, b, n1⟩
  cases b with
  | true =>
      rw [runGroups, hc]
      rfl
  | false =>
      rcases h1 : pass1Loop cancel (p1 i) n1 [] with ⟨ev1, n2, res1⟩
      cases res1 with
      | none =>
          rw [runGroups, hc]
          simp only [h1]
          rfl
      | some raw =>
          rcases h2 : pass2Loop cancel (p2 i) n2 fs out with ⟨ev2, n3, res2⟩
          cases res2 with
          | none =>
              rw [runGroups, hc]
              simp only [h1, h2]
              rfl
          | some st =>
              rcases st with ⟨fs2, out2⟩
              rcases h3 : runGroups p1 p2 cancel rest (i + 1) n3 fs2 (out2 ++ nlnl) with
                ⟨evr, n4, res⟩
              rw [runGroups, hc]
              simp only [h1, h2, h3]
              rfl

theorem noDoneEv_sep : NoDoneEv [Ev.tok nlnl] := noDoneEv_tok nlnl

theorem pass1Loop_trace (cancel : Option (Nat → Bool)) :
    ∀ (toks : List (List Char)) (n : Nat) (raw : List Char),
      NoDoneEv (pass1Loop cancel toks n raw).1 ∧
      ((pass1Loop cancel toks n raw).2.2 ≠ none →
        NoStopEv (pass1Loop cancel toks n raw).1) ∧
      ((pass1Loop cancel toks n raw).2.2 = none →
        StopsAtEnd (pass1Loop cancel toks n raw).1) := by
  intro toks
  induction toks with
  | nil =>
      intro n raw
      refine ⟨noDoneEv_nil, fun _ => noStopEv_nil, fun h => ?_⟩
      simp [pass1Loop] at h
  | cons t ts ih =>
      intro n raw
      rw [pass1Loop_cons]
      cases hb : (checkCancel cancel n).2.1 with
      | true =>
          simp only [hb, if_true]
          have hcev := checkCancel_true_events cancel n hb
          rw [hcev]
          exact ⟨noDoneEv_chk true, fun h => absurd rfl h, fun _ => stopsAtEnd_chk_true⟩
      | false =>
          simp only [hb, Bool.false_eq_true, if_false]
          obtain ⟨ihd, ihs, ihe⟩ := ih (checkCancel cancel n).2.2 (raw ++ t)
          have hEnd : NoDoneEv (checkCancel cancel n).1 := checkCancel_noDone cancel n
          have hEns : NoStopEv (checkCancel cancel n).1 :=
            checkCancel_false_noStop cancel n hb
          have hXnd : NoDoneEv (if t = [] then ([] : List Ev) else [Ev.tok t]) := by
            by_cases ht : t = []
            · rw [if_pos ht]; exact noDoneEv_nil
            · rw [if_neg ht]; exact noDoneEv_tok t
          have hXns : NoStopEv (if t = [] then ([] : List Ev) else [Ev.tok t]) := by
            by_cases ht : t = []
            · rw [if_pos ht]; exact noStopEv_nil
            · rw [if_neg ht]; exact noStopEv_tok t
          exact ⟨noDoneEv_append (noDoneEv_append hEnd hXnd) ihd,
            fun h => noStopEv_append (noStopEv_append hEns hXns) (ihs h),
            fun h => stopsAtEnd_append (noStopEv_append hEns hXns) (ihe h)⟩

theorem pass2Loop_trace (cancel : Option (Nat → Bool)) :
    ∀ (toks : List (List Char)) (n : Nat) (fs : FilterState) (out : List Char),
      NoDoneEv (pass2Loop cancel toks n fs out).1 ∧
      ((pass2Loop cancel toks n fs out).2.2 ≠ none →
        NoStopEv (pass2Loop cancel toks n fs out).1) ∧
      ((pass2Loop cancel toks n fs out).2.2 = none →
        StopsAtEnd (pass2Loop cancel toks n fs out).1) := by
  intro toks
  induction toks with
  | nil =>
      intro n fs out
      refine ⟨noDoneEv_nil, fun _ => noStopEv_nil, fun h => ?_⟩
      simp [pass2Loop] at h
  | cons t ts ih =>
      intro n fs out
      rw [pass2Loop_cons]
      cases hb : (checkCancel cancel n).2.1 with
      | true =>
          simp only [hb, if_true]
          have hcev := checkCancel_true_events cancel n hb
          rw [hcev]
          exact ⟨noDoneEv_chk true, fun h => absurd rfl h, fun _ => stopsAtEnd_chk_true⟩
      | false =>
          simp only [hb, Bool.false_eq_true, if_false]
          have hEnd : NoDoneEv (checkCancel cancel n).1 := checkCancel_noDone cancel n
          have hEns : NoStopEv (checkCancel cancel n).1 :=
            checkCancel_false_noStop cancel n hb
          by_cases ht : t = []
          · rw [if_pos ht]
            obtain ⟨ihd, ihs, ihe⟩ := ih (checkCancel cancel n).2.2 fs out
            exact ⟨noDoneEv_append hEnd ihd,
              fun h => noStopEv_append hEns (ihs h),
              fun h => stopsAtEnd_append hEns (ihe h)⟩
          · rw [if_neg ht]
            obtain ⟨ihd, ihs, ihe⟩ := ih (checkCancel cancel n).2.2 (filter_token fs t).2
              (if (filter_token fs t).1 = [] then out else out ++ (filter_token fs t).1)
            have hshape :
                (checkCancel cancel n).1 ++ Ev.tok t ::
                    (pass2Loop cancel ts (checkCancel cancel n).2.2 (filter_token fs t).2
                      (if (filter_token fs t).1 = [] then out
                        else out ++ (filter_token fs t).1)).1 =
                  (checkCancel cancel n).1 ++ [Ev.tok t] ++
                    (pass2Loop cancel ts (checkCancel cancel n).2.2 (filter_token fs t).2
                      (if (filter_token fs t).1 = [] then out
                        else out ++ (filter_token fs t).1)).1 := by
              simp
            rw [hshape]
            exact ⟨noDoneEv_append (noDoneEv_append hEnd (noDoneEv_tok t)) ihd,
              fun h => noStopEv_append (noStopEv_append hEns (noStopEv_tok t)) (ihs h),
              fun h => stopsAtEnd_append (noStopEv_append hEns (noStopEv_tok t)) (ihe h)⟩

theorem runGroups_trace (p1 p2 : Nat → List (List Char)) (cancel : Option (Nat → Bool)) :
    ∀ (dates : List (List Char)) (i n : Nat) (fs : FilterState) (out : List Char),
      NoDoneEv (runGroups p1 p2 cancel dates i n fs out).1 ∧
      ((runGroups p1 p2 cancel dates i n fs out).2.2 ≠ none →
        NoStopEv (runGroups p1 p2 cancel dates i n fs out).1) ∧
      ((runGroups p1 p2 cancel dates i n fs out).2.2 = none →
        StopsAtEnd (runGroups p1 p2 cancel dates i n fs out).1) := by
  intro dates
  induction dates with
  | nil =>
      intro i n fs out
      refine ⟨noDoneEv_nil, fun _ => noStopEv_nil, fun h => ?_⟩
      simp [runGroups] at h
  | cons md rest ih =>
      intro i n fs out
      rw [runGroups_cons]
      cases hb : (checkCancel cancel n).2.1 with
      | true =>
          simp only [hb, if_true]
          have hcev := checkCancel_true_events cancel n hb
          rw [hcev]
          exact ⟨noDoneEv_chk true, fun h => absurd rfl h, fun _ => stopsAtEnd_chk_true⟩
      | false =>
          simp only [hb, Bool.false_eq_true, if_false]
          have hEnd : NoDoneEv (checkCancel cancel n).1 := checkCancel_noDone cancel n
          have hEns : NoStopEv (checkCancel cancel n).1 :=
            checkCancel_false_noStop cancel n hb
          obtain ⟨p1d, p1s, p1e⟩ := pass1Loop_trace cancel (p1 i) (checkCancel cancel n).2.2 []
          rcases hp1 : pass1Loop cancel (p1 i) (checkCancel cancel n).2.2 [] with
            ⟨ev1, n2, res1⟩
          rw [hp1] at p1d p1s p1e
          cases res1 with
          | none =>
              simp only [hp1]
              exact ⟨noDoneEv_append hEnd p1d,
                fun h => absurd rfl h,
                fun _ => stopsAtEnd_append hEns (p1e rfl)⟩
          | some raw =>
              have p1ns : NoStopEv ev1 := p1s (by simp)
              obtain ⟨p2d, p2s, p2e⟩ := pass2Loop_trace cancel (p2 i) n2 fs out
              rcases hp2 : pass2Loop cancel (p2 i) n2 fs out with ⟨ev2, n3, res2⟩
              rw [hp2] at p2d p2s p2e
              cases res2 with
              | none =>
                  simp only [hp1, hp2]
                  refine ⟨noDoneEv_append (noDoneEv_append hEnd p1d) p2d,
                    fun h => absurd rfl h,
                    fun _ => stopsAtEnd_append (noStopEv_append hEns p1ns) (p2e rfl)⟩
              | some st =>
                  rcases st with ⟨fs2, out2⟩
                  have p2ns : NoStopEv ev2 := p2s (by simp)
                  obtain ⟨rd, rs, re⟩ := ih (i + 1) n3 fs2 (out2 ++ nlnl)
                  rcases hr : runGroups p1 p2 cancel rest (i + 1) n3 fs2 (out2 ++ nlnl) with
                    ⟨evr, n4, res⟩
                  rw [hr] at rd rs re
                  simp only [hp1, hp2, hr]
                  have hshape :
                      (checkCancel cancel n).1 ++ ev1 ++ ev2 ++ Ev.tok nlnl :: evr =
                        (((checkCancel cancel n).1 ++ ev1 ++ ev2) ++ [Ev.tok nlnl]) ++ evr := by
                    simp
                  rw [hshape]
                  have hnd3 : NoDoneEv (((checkCancel cancel n).1 ++ ev1 ++ ev2) ++
                      [Ev.tok nlnl]) := by
                    refine noDoneEv_append (noDoneEv_append ?_ p2d) noDoneEv_sep
                    exact noDoneEv_append hEnd p1d
                  have hns3 : NoStopEv (((checkCancel cancel n).1 ++ ev1 ++ ev2) ++
                      [Ev.tok nlnl]) := by
                    refine noStopEv_append (noStopEv_append ?_ p2ns) (noStopEv_tok nlnl)
                    exact noStopEv_append hEns p1ns
                  exact ⟨noDoneEv_append hnd3 rd,
                    fun h => noStopEv_append hns3 (rs h),
                    fun h => stopsAtEnd_append hns3 (re h)⟩

theorem chk_true_last {x : Ev} :
    ∀ (p0 pre post : List Ev), x ∉ p0 → p0 ++ [x] = pre ++ x :: post → post = [] := by
  intro p0
  induction p0 with
  | nil =>
      intro pre post _ h
      cases pre with
      | nil =>
          rw [List.nil_append] at h
          injection h with h1 h2
          exact h2.symm
      | cons y pre' =>
          exfalso
          have hlen := congrArg List.length h
          simp only [List.length_append, List.length_cons, List.length_nil,
            List.cons_append, List.nil_append] at hlen
          omega
  | cons z p0' ih =>
      intro pre post hx h
      cases pre with
      | nil =>
          rw [List.cons_append, List.nil_append] at h
          injection h with h1 h2
          exact absurd (h1 ▸ List.mem_cons_self z p0') hx
      | cons y pre' =>
          rw [List.cons_append, List.cons_append] at h
          injection h with h1 h2
          have hx' : x ∉ p0' := fun hm => hx (List.mem_cons_of_mem z hm)
          exact ih pre' post hx' h2

/-- C2: once any cancellation check of a generation run observes the flag
set, the run stops: the set-flag observation is the last event of the run's
trace (so no further live-token callback is delivered) and the completion
callback never occurs anywhere in the trace. -/
theorem cancellation_stops_run :
    ∀ (rows : List Row) (p1 p2 : Nat → List (List Char)) (cancel : Option (Nat → Bool))
      (pre post : List Ev),
      runGen rows p1 p2 cancel = pre ++ Ev.chk true :: post →
      post = [] ∧ ∀ r ds, Ev.done r ds ∉ runGen rows p1 p2 cancel := by
  intro rows p1 p2 cancel pre post h
  obtain ⟨gd, gs, ge⟩ := runGroups_trace p1 p2 cancel (orderedDates rows) 0 0 initFilter []
  rcases hg : runGroups p1 p2 cancel (orderedDates rows) 0 0 initFilter [] with ⟨evs, n, res⟩
  rw [hg] at gd gs ge
  simp only at gd gs ge
  cases res with
  | none =>
      have hT : runGen rows p1 p2 cancel = evs := by
        rw [runGen]
        simp only [hg]
      rw [hT] at h ⊢
      obtain ⟨p0, hp0, hnp0⟩ := ge rfl
      rw [hp0] at h
      exact ⟨chk_true_last p0 pre post hnp0 h, hp0 ▸ gd⟩
  | some st =>
      rcases st with ⟨fs, out⟩
      have gns : NoStopEv evs := gs (by simp)
      rcases hcc : checkCancel cancel n with ⟨cev, b, n1⟩
      cases b with
      | true =>
          have hcev : cev = [Ev.chk true] := by
            have h2 := checkCancel_true_events cancel n (by rw [hcc])
            rw [hcc] at h2
            exact h2
          have hT : runGen rows p1 p2 cancel = evs ++ [Ev.chk true] := by
            rw [runGen]
            simp only [hg, hcc, hcev]
          rw [hT] at h ⊢
          refine ⟨chk_true_last evs pre post gns h, ?_⟩
          intro r ds hmem
          rcases List.mem_append.mp hmem with hm | hm
          · exact gd r ds hm
          · rcases List.mem_cons.mp hm with hm | hm
            · cases hm
            · cases hm
      | false =>
          have hnd : NoDoneEv cev := by
            have h2 := checkCancel_noDone cancel n
            rwa [hcc] at h2
          have hns : NoStopEv cev := by
            have h2 := checkCancel_false_noStop cancel n (by rw [hcc])
            rwa [hcc] at h2
          have hT : runGen rows p1 p2 cancel =
              evs ++ cev ++ [Ev.done out (orderedDates rows)] := by
            rw [runGen]
            simp only [hg, hcc]
          rw [hT] at h
          have hmem : Ev.chk true ∈ evs ++ cev ++ [Ev.done out (orderedDates rows)] := by
            rw [h]
            simp
          exfalso
          rcases List.mem_append.mp hmem with hm | hm
          · rcases List.mem_append.mp hm with hm2 | hm2
            · exact gns hm2
            · exact hns hm2
          · rcases List.mem_cons.mp hm with hm2 | hm2
            · cases hm2
            · cases hm2

/-- Witness for `cancellation_stops_run`: a run whose cancellation flag is
set from the start emits exactly one set-flag observation and nothing
else. -/
theorem cancellation_stops_run_witness :
    ([] : List Ev) = [] ∧
      ∀ r ds, Ev.done r ds ∉
        runGen [⟨"10-Sep".toList, none, none, none⟩] (fun _ => []) (fun _ => [])
          (some fun _ => true) :=
  cancellation_stops_run [⟨"10-Sep".toList, none, none, none⟩] (fun _ => []) (fun _ => [])
    (some fun _ => true) [] [] (by decide)

/-- C3: the ordered list of date-group keys equals the stringified date
values in order of first appearance, with no duplicates; and any completion
callback of a run delivers exactly this list as its date argument. -/
theorem grouping_first_appearance :
    ∀ rows : List Row,
      orderedDates rows = firstSeen (rows.map Row.date) ∧
      (orderedDates rows).Nodup ∧
      ∀ (p1 p2 : Nat → List (List Char)) (cancel : Option (Nat → Bool)) (r : List Char)
        (ds : List (List Char)),
        Ev.done r ds ∈ runGen rows p1 p2 cancel → ds = firstSeen (rows.map Row.date) := by
  intro rows
  refine ⟨orderedDates_eq_firstSeen rows, ?_, ?_⟩
  · rw [orderedDates_eq_firstSeen]
    exact firstSeen_nodup _
  · intro p1 p2 cancel r ds hmem
    rw [← orderedDates_eq_firstSeen]
    obtain ⟨gd, gs, ge⟩ := runGroups_trace p1 p2 cancel (orderedDates rows) 0 0 initFilter []
    rcases hg : runGroups p1 p2 cancel (orderedDates rows) 0 0 initFilter [] with ⟨evs, n, res⟩
    rw [hg] at gd gs ge
    simp only at gd gs ge
    cases res with
    | none =>
        have hT : runGen rows p1 p2 cancel = evs := by
          rw [runGen]
          simp only [hg]
        rw [hT] at hmem
        exact absurd hmem (gd r ds)
    | some st =>
        rcases st with ⟨fs, out⟩
        rcases hcc : checkCancel cancel n with ⟨cev, b, n1⟩
        have hnd : NoDoneEv cev := by
          have h2 := checkCancel_noDone cancel n
          rwa [hcc] at h2
        cases b with
        | true =>
            have hT : runGen rows p1 p2 cancel = evs ++ cev := by
              rw [runGen]
              simp only [hg, hcc]
            rw [hT] at hmem
            rcases List.mem_append.mp hmem with hm | hm
            · exact absurd hm (gd r ds)
            · exact absurd hm (hnd r ds)
        | false =>
            have hT : runGen rows p1 p2 cancel =
                evs ++ cev ++ [Ev.done out (orderedDates rows)] := by
              rw [runGen]
              simp only [hg, hcc]
            rw [hT] at hmem
            rcases List.mem_append.mp hmem with hm | hm
            · rcases List.mem_append.mp hm with hm2 | hm2
              · exact absurd hm2 (gd r ds)
              · exact absurd hm2 (hnd r ds)
            · rcases List.mem_cons.mp hm with hm2 | hm2
              · injection hm2 with h1 h2
              · cases hm2

/-- Witness for `grouping_first_appearance` at a one-row run whose
completion callback fires. -/
theorem grouping_first_appearance_witness :
    ["10-Sep".toList] =
      firstSeen (([⟨"10-Sep".toList, none, none, none⟩] : List Row).map Row.date) :=
  (grouping_first_appearance [⟨"10-Sep".toList, none, none, none⟩]).2.2
    (fun _ => []) (fun _ => []) none "\n\n".toList ["10-Sep".toList] (by decide)

theorem runFilter_flatten :
    ∀ (toks : List (List Char)) (fs : FilterState),
      (runFilter fs toks).1 = (filterOutputs fs toks).flatten := by
  intro toks
  induction toks with
  | nil => intro fs; rfl
  | cons t ts ih =>
      intro fs
      rw [runFilter, filterOutputs, List.flatten_cons, ih]

theorem flatten_filter_nonempty :
    ∀ L : List (List Char), ((L.filter (fun o => decide (o ≠ []))).flatten) = L.flatten := by
  intro L
  induction L with
  | nil => rfl
  | cons o L ih =>
      rw [List.filter_cons]
      by_cases ho : o = []
      · rw [if_neg (by simp [ho]), List.flatten_cons, ih, ho, List.nil_append]
      · rw [if_pos (by simpa using ho), List.flatten_cons, List.flatten_cons, ih]

/-- C6 (amended): in an uncancelled pass-2 streaming loop the live-token
sink receives exactly the raw non-empty pass-2 tokens, in order, while the
report buffer is extended by exactly the concatenation of the filter's
(non-empty) outputs on those tokens, and the run's filter state advances
accordingly. -/
theorem pass2_sink_raw_report_filtered :
    ∀ (toks : List (List Char)) (n : Nat) (fs : FilterState) (out : List Char),
      pass2Loop none toks n fs out =
        ((toks.filter (fun t => decide (t ≠ []))).map Ev.tok, n,
          some ((runFilter fs toks).2, out ++ (runFilter fs toks).1)) ∧
      (runFilter fs toks).1 =
        ((filterOutputs fs toks).filter (fun o => decide (o ≠ []))).flatten := by
  intro toks
  induction toks with
  | nil =>
      intro n fs out
      constructor
      · simp [pass2Loop, runFilter]
      · rfl
  | cons t ts ih =>
      intro n fs out
      constructor
      · rw [pass2Loop_cons]
        have h1 : (checkCancel none n).2.1 = false := rfl
        have h2 : (checkCancel none n).1 = ([] : List Ev) := rfl
        have h3 : (checkCancel none n).2.2 = n := rfl
        rw [h1, h2, h3, if_neg (show ¬(false = true) by decide)]
        by_cases ht : t = []
        · rw [if_pos ht, (ih n fs out).1]
          subst ht
          have hft : filter_token fs ([] : List Char) = ([], fs) := rfl
          rw [List.filter_cons]
          rw [if_neg (by decide)]
          rw [runFilter, hft]
          simp
        · by_cases hcl : (filter_token fs t).1 = []
          · rw [if_neg ht, if_pos hcl, (ih n (filter_token fs t).2 out).1]
            rw [List.filter_cons, if_pos (by simpa using ht), List.map_cons, runFilter]
            rw [hcl, List.nil_append]
            simp
          · rw [if_neg ht, if_neg hcl,
              (ih n (filter_token fs t).2 (out ++ (filter_token fs t).1)).1]
            rw [List.filter_cons, if_pos (by simpa using ht), List.map_cons, runFilter]
            simp [List.append_assoc]
      · rw [runFilter, filterOutputs, List.filter_cons]
        by_cases hcl : (filter_token fs t).1 = []
        · rw [if_neg (by simp [hcl]), hcl, List.nil_append]
          exact (ih n (filter_token fs t).2 out).2
        · rw [if_pos (by simp [hcl]), List.flatten_cons,
            (ih n (filter_token fs t).2 out).2]

/-- C6 counterexample: during a pass-2 loop on the single raw token
`"<think>X</think>Y"`, the live-token sink receives the raw token itself,
not the filter's non-empty output `"Y"` — raw pass-2 tokens do reach the
live-token sink. -/
theorem pass2_sink_receives_raw_tokens :
    sinkTexts (pass2Loop none ["<think>X</think>Y".toList] 0 initFilter []).1 =
      ["<think>X</think>Y".toList] ∧
    (filterOutputs initFilter ["<think>X</think>Y".toList]).filter
        (fun o => decide (o ≠ [])) = ["Y".toList] ∧
    sinkTexts (pass2Loop none ["<think>X</think>Y".toList] 0 initFilter []).1 ≠
      (filterOutputs initFilter ["<think>X</think>Y".toList]).filter
        (fun o => decide (o ≠ [])) :=
  ⟨by decide, by decide, by decide⟩

/-- C8: `generate_report` fails synchronously — before any worker state is
created — exactly when the selected-rows list is empty or the model is not
loaded; an empty selection raises the empty-input error (checked first), a
missing model raises the model-not-ready error, and otherwise the rows are
handed to the worker unchanged. -/
theorem generate_report_sync_errors :
    ∀ (rows : List Row) (loaded : Bool),
      ((∃ e, generate_report rows loaded = Except.error e) ↔ rows = [] ∨ loaded = false) ∧
      (rows = [] → generate_report rows loaded = Except.error GenError.emptyInput) ∧
      (rows ≠ [] → loaded = false →
        generate_report rows loaded = Except.error GenError.modelNotReady) ∧
      (rows ≠ [] → loaded = true → generate_report rows loaded = Except.ok rows) := by
  intro rows loaded
  by_cases hr : rows = []
  · refine ⟨?_, ?_, ?_, ?_⟩
    · constructor
      · intro _
        exact Or.inl hr
      · intro _
        exact ⟨GenError.emptyInput, by simp [generate_report, hr]⟩
    · intro _
      simp [generate_report, hr]
    · intro h
      exact absurd hr h
    · intro h
      exact absurd hr h
  · cases loaded with
    | false =>
        refine ⟨?_, ?_, ?_, ?_⟩
        · constructor
          · intro _
            exact Or.inr rfl
          · intro _
            exact ⟨GenError.modelNotReady, by simp [generate_report, hr]⟩
        · intro h
          exact absurd h hr
        · intro _ _
          simp [generate_report, hr]
        · intro _ h
          cases h
    | true =>
        refine ⟨?_, ?_, ?_, ?_⟩
        · constructor
          · intro ⟨e, he⟩
            rw [show generate_report rows true = Except.ok rows from by
              simp [generate_report, hr]] at he
            cases he
          · intro h
            rcases h with h | h
            · exact absurd h hr
            · cases h
        · intro h
          exact absurd h hr
        · intro _ h
          cases h
        · intro _ _
          simp [generate_report, hr]

/-- Witness for `generate_report_sync_errors` at concrete inputs: an unready
model raises synchronously, a ready model with one row hands the rows to the
worker. -/
theorem generate_report_sync_errors_witness :
    generate_report [⟨"10-Sep".toList, none, none, none⟩] false =
        Except.error GenError.modelNotReady ∧
      generate_report [⟨"10-Sep".toList, none, none, none⟩] true =
        Except.ok [⟨"10-Sep".toList, none, none, none⟩] :=
  ⟨(generate_report_sync_errors [⟨"10-Sep".toList, none, none, none⟩] false).2.2.1
      (by decide) rfl,
    (generate_report_sync_errors [⟨"10-Sep".toList, none, none, none⟩] true).2.2.2
      (by decide) rfl⟩
